import Mathlib

/-!
Shallow embedding of the `treematcher` tree-pattern matching engine
(`treematcher.py`) and proofs about its specification.

Conventions of the embedding:
* Python strings are embedded as `List Char` (named `PStr` below); all the
  string manipulation done by the compiler (`parse_metacharacters`,
  `parse_node_name`, `decode_repeat_symbol`, the `SET` rewrites) is
  reproduced character by character.
* The ete3 tree type is embedded as `ETree` (a name plus an ordered list of
  children).  A "node of a tree", as passed around by the matcher, is a
  `TRef`: the subtree rooted at the node together with the information the
  matcher actually reads from the node's context (`is_root()` and
  `get_sisters()`).
* Mutable state (the per-node `controller["skipped"]` counters) is embedded
  by threading the whole compiled pattern tree (`PTree`) through the
  matcher; a pattern node is addressed by its path from the pattern root,
  which also models the `self = self.up` / `self = self.children[0]`
  rebindings of the Python code.
* Python `eval` of a constraint string is embedded as an oracle
  (`EvalOracle`); the concrete oracle `pyEval` interprets exactly the
  constraint shapes the compiler itself generates (`__target_node.is_root()`,
  `__target_node.is_leaf()`, and `__target_node.name == "..."`); every other
  string is reported as an unresolved-name error.
* Recursion over trees is fueled (`Nat` fuel, always instantiated from
  `sizeOf` bounds that are provably sufficient) so that all definitions are
  executable and kernel-reducible.
-/

namespace TM

/-- Python strings of the embedded program. -/
abbrev PStr := List Char

/-- Result of evaluating one constraint string with Python `eval`:
either a boolean, or one of the exception classes the source code
catches (`ValueError`, `NameError`, `AttributeError`/`IndexError`). -/
inductive EvalRes where
  | ok (b : Bool)
  | valueE
  | nameE
  | attrE
deriving DecidableEq

/-- Errors that can escape the engine: `ValueError`, `NameError`,
`AttributeError`, `IndexError` (e.g. `match_list[0]` on an empty list),
plus `fuel` marking exhausted recursion fuel (never reached when the
fuel is instantiated from the size bounds used below). -/
inductive MErr where
  | value
  | name
  | attr
  | index
  | fuel
deriving DecidableEq

/-- A labelled, ordered tree: the shape shared by ete3 target trees and by
the raw (pre-compilation) pattern trees. -/
inductive ETree where
  | node (name : PStr) (children : List ETree)

instance : Inhabited ETree := ⟨.node [] []⟩

/-- Name of the root of a tree. -/
def ETree.name : ETree → PStr
  | .node n _ => n

/-- Children of the root of a tree. -/
def ETree.children : ETree → List ETree
  | .node _ c => c

/-- A target-tree node as the matcher sees it: the subtree hanging from the
node, whether the node is the root of the whole target tree
(`is_root()`), and the list of its sisters (`get_sisters()`). -/
structure TRef where
  tree : ETree
  isRoot : Bool
  sisters : List ETree

instance : Inhabited TRef := ⟨⟨default, false, []⟩⟩

/-- Modelled from the spec: the repository imports `SYMBOL` from a
`symbols` module that is not part of the sources.  The spec describes the
markers (root anchor, leaf anchor, negation, the three connection
quantifiers, the node reference and the `{low-high}` bounded marker); the
repository's tests pin the concrete characters `+`, `*`, `@`, `^`, `!`
and the braces.  The leaf anchor and zero-or-one characters are chosen
here; no claim depends on their concrete value. -/
structure SymbolTable where
  one_or_more : Char
  zero_or_more : Char
  zero_or_one : Char
  is_root : Char
  is_leaf : Char
  sym_not : Char
  node_reference : Char
  defined_number_set_start : Char
  defined_number_set_end : Char

/-- Modelled from the spec: the concrete `SYMBOL` table. -/
def SYMBOL : SymbolTable :=
  { one_or_more := '+'
    zero_or_more := '*'
    zero_or_one := '?'
    is_root := '^'
    is_leaf := '$'
    sym_not := '!'
    node_reference := '@'
    defined_number_set_start := '\x7b'
    defined_number_set_end := '\x7d' }

/-- Python `SYMBOL.values()` as the list of marker characters. -/
def symbolValues : List Char :=
  [SYMBOL.one_or_more, SYMBOL.zero_or_more, SYMBOL.zero_or_one,
   SYMBOL.is_root, SYMBOL.is_leaf, SYMBOL.sym_not, SYMBOL.node_reference,
   SYMBOL.defined_number_set_start, SYMBOL.defined_number_set_end]

/-- Modelled from the spec: the `SET` table from the missing `symbols`
module.  `all_nodes` is the marker that turns a node into an extreme
selector ("compare across all final candidates"); `any_child` and
`children` introduce the two bracket constructs.  Concrete spellings are
chosen here; no claim depends on them. -/
structure SetTable where
  any_child : PStr
  children : PStr
  all_nodes : PStr

/-- Modelled from the spec: the concrete `SET` table. -/
def SET : SetTable :=
  { any_child := "any[".toList
    children := "all[".toList
    all_nodes := "%".toList }

/-- The per-node `controller` dictionary built by `set_controller`.
The `root` and `leaf` keys are only inserted when the corresponding
marker is present; their absence is embedded as `false` (the code tests
`"root" in self.controller and self.controller["root"]`).  The spelling
`single_match_contstraint` reproduces the source. -/
structure Ctrl where
  ctrl_not : Bool
  low : Int
  high : Int
  skipped : Int
  single_match : Bool
  single_match_contstraint : PStr
  allow_indirect_connection : Bool
  direct_connection_first : Bool
  root : Bool
  leaf : Bool
deriving DecidableEq

/-- The defaults installed by `set_controller` before
`define_skipping_properties` runs. -/
def defaultCtrl : Ctrl :=
  { ctrl_not := false
    low := 0
    high := -1
    skipped := 0
    single_match := false
    single_match_contstraint := []
    allow_indirect_connection := false
    direct_connection_first := false
    root := false
    leaf := false }

/-- A compiled pattern tree: each node carries its rewritten name and its
controller. -/
inductive PTree where
  | node (name : PStr) (ctrl : Ctrl) (children : List PTree)

instance : Inhabited PTree := ⟨.node [] defaultCtrl []⟩

/-- Name of a compiled pattern node. -/
def PTree.name : PTree → PStr
  | .node n _ _ => n

/-- Controller of a compiled pattern node. -/
def PTree.ctrl : PTree → Ctrl
  | .node _ c _ => c

/-- Children of a compiled pattern node. -/
def PTree.children : PTree → List PTree
  | .node _ _ c => c

/-- `TreePattern.is_in_bounds`: the lower bound is inclusive
(`test >= low`); the upper bound is only enforced when it is
non-negative, `-1` meaning unbounded. -/
def is_in_bounds (c : Ctrl) (isLow : Bool) (test : Int) : Bool :=
  if isLow then c.low ≤ test
  else if 0 ≤ c.high then test ≤ c.high
  else true

/-! ### String helpers (Python built-ins used by the compiler) -/

/-- Python `int(s)`: optional surrounding whitespace, optional sign, then
at least one digit; anything else raises `ValueError`. -/
def pyInt (s : PStr) : Except MErr Int :=
  let s := (s.dropWhile Char.isWhitespace).reverse.dropWhile Char.isWhitespace |>.reverse
  let (neg, digits) :=
    match s with
    | '-' :: rest => (true, rest)
    | '+' :: rest => (false, rest)
    | _ => (false, s)
  if digits = [] ∨ ¬ digits.all Char.isDigit then .error .value
  else
    let v : Int := digits.foldl (fun acc c => acc * 10 + (c.toNat - '0'.toNat)) 0
    .ok (if neg then -v else v)

/-- Python `str.strip()` (whitespace at both ends). -/
def pyStrip (s : PStr) : PStr :=
  (s.dropWhile Char.isWhitespace).reverse.dropWhile Char.isWhitespace |>.reverse

/-- Helper for `pySplit`: accumulator-based splitting. -/
def pySplitAux (sep : Char) : PStr → PStr → List PStr → List PStr
  | [], cur, acc => acc.reverse ++ [cur.reverse]
  | c :: rest, cur, acc =>
      if c = sep then pySplitAux sep rest [] (cur.reverse :: acc)
      else pySplitAux sep rest (c :: cur) acc

/-- Python `str.split(sep)` for a single-character separator. -/
def pySplit (sep : Char) (s : PStr) : List PStr :=
  pySplitAux sep s [] []

/-- Python `str.replace(old, new)` for a single-character `old`. -/
def pyReplace (old : Char) (new : PStr) : PStr → PStr
  | [] => []
  | c :: rest => (if c = old then new else [c]) ++ pyReplace old new rest

/-- Python `sub in s` for substring containment. -/
def pyContains (sub : PStr) : PStr → Bool
  | [] => sub.isEmpty
  | c :: rest => sub.isPrefixOf (c :: rest) || pyContains sub rest

/-- Helper for `pySplitStr`, fueled by the length of the string. -/
def pySplitStrAux (sep : PStr) : Nat → PStr → PStr → List PStr → List PStr
  | 0, s, cur, acc => acc.reverse ++ [(cur.reverse ++ s)]
  | _ + 1, [], cur, acc => acc.reverse ++ [cur.reverse]
  | fuel + 1, c :: rest, cur, acc =>
      if sep.isPrefixOf (c :: rest) then
        pySplitStrAux sep fuel ((c :: rest).drop sep.length) [] (cur.reverse :: acc)
      else pySplitStrAux sep fuel rest (c :: cur) acc

/-- Python `s.split(sep)` for a multi-character separator (only the pieces
`[0]` and `[1]` are ever used by the source). -/
def pySplitStr (sep : PStr) (s : PStr) : List PStr :=
  if sep = [] then [s] else pySplitStrAux sep (s.length + 1) s [] []

/-- Helper for `pyReplaceStr`, fueled by the length of the string. -/
def pyReplaceStrAux (old new : PStr) : Nat → PStr → PStr
  | 0, s => s
  | _ + 1, [] => []
  | fuel + 1, c :: rest =>
      if old.isPrefixOf (c :: rest) then
        new ++ pyReplaceStrAux old new fuel ((c :: rest).drop old.length)
      else c :: pyReplaceStrAux old new fuel rest

/-- Python `str.replace(old, new)` for a multi-character `old`. -/
def pyReplaceStr (old new s : PStr) : PStr :=
  if old = [] then s else pyReplaceStrAux old new (s.length + 1) s

/-- Python slice `s[i:stop]` with a possibly negative `stop` (as produced
by `str.find` returning `-1`). -/
def pySlice (s : PStr) (i : Nat) (stop : Int) : PStr :=
  (s.take stop.toNat).drop i

/-! ### The pattern compiler -/

/-- `TreePattern.parse_metacharacters`, fueled by the length of the name:
strips recognized metacharacters from the right end of the node name,
returning them in strip order together with the residual name.  A bounded
marker is cut out between the first `defined_number_set_start` and the
first `defined_number_set_end` (Python `str.find` semantics, `-1` when
absent). -/
def parseMetaAux : Nat → PStr → List PStr × PStr
  | 0, name => ([], name)
  | fuel + 1, name =>
    match name.getLast? with
    | none => ([], name)
    | some c =>
      if c ∈ symbolValues then
        if SYMBOL.defined_number_set_start ∈ name then
          let i := (name.findIdx? (· = SYMBOL.defined_number_set_start)).getD 0
          let j : Int :=
            match name.findIdx? (· = SYMBOL.defined_number_set_end) with
            | some j => (j : Int)
            | none => -1
          let meta := pySlice name i (j + 1)
          let rest := name.take i
          let (ms, res) := parseMetaAux fuel rest
          (meta :: ms, res)
        else
          let rest := name.dropLast
          let (ms, res) := parseMetaAux fuel rest
          ([c] :: ms, res)
      else ([], name)

/-- `TreePattern.parse_metacharacters`: after stripping, an emptied name
becomes the node-reference symbol. -/
def parse_metacharacters (name : PStr) : List PStr × PStr :=
  let (ms, res) := parseMetaAux (name.length + 1) name
  if res.length < 1 then (ms, [SYMBOL.node_reference]) else (ms, res)

/-- `TreePattern.decode_repeat_symbol`: strips the surrounding braces,
then either splits on `-` (an empty low bound defaults to `0`, an empty
high bound to `-1`) or reads a single number meaning `low = high = n`.
A non-numeric bound raises `ValueError` (from Python `int`). -/
def decode_repeat_symbol (bounds : PStr) : Except MErr (Int × Int) :=
  let bounds := (bounds.drop 1).dropLast
  if '-' ∈ bounds then
    let split := pySplit '-' bounds
    let s0 := split.getD 0 []
    let s1 := split.getD 1 []
    do
      let low ← if s0 ≠ [] then pyInt s0 else .ok 0
      let high ← if s1 ≠ [] then pyInt s1 else .ok (-1)
      .ok (low, high)
  else do
    let v ← pyInt bounds
    .ok (v, v)

/-- `TreePattern.parse_node_name`: splits the name on commas, rewrites
every purely alphabetic clause into an equality test against the node
name, and conjoins the non-empty clauses with `and`. -/
def parse_node_name (name : PStr) : PStr :=
  let expressions := (pySplit ',' name).map pyStrip
  let expressions := expressions.map (fun e =>
    if e.length > 0 ∧ e.all Char.isAlpha then
      "@.name == ".toList ++ ['"'] ++ e ++ ['"']
    else e)
  List.intercalate " and ".toList (expressions.filter (fun e => e.length > 0))

/-- `TreePattern.define_skipping_properties`: folds the stripped
metacharacters into controller updates.  The root/leaf/negation markers
and the connection markers are tested independently, exactly as the
sequence of `if`s in the source; the bounded marker decodes its bounds
and sets `direct_connection_first` iff the low bound is zero. -/
def define_skipping_properties (metas : List PStr) (c : Ctrl) : Except MErr Ctrl :=
  match metas with
  | [] => .ok c
  | m :: rest => do
    let c := if m = [SYMBOL.is_root] then { c with root := true } else c
    let c := if m = [SYMBOL.is_leaf] then { c with leaf := true } else c
    let c := if m = [SYMBOL.sym_not] then { c with ctrl_not := true } else c
    let c ←
      if m = [SYMBOL.one_or_more] then
        .ok { c with allow_indirect_connection := true
                     direct_connection_first := false
                     low := 1 }
      else if m = [SYMBOL.zero_or_more] then
        .ok { c with allow_indirect_connection := true
                     direct_connection_first := true }
      else if m = [SYMBOL.zero_or_one] then
        .ok { c with direct_connection_first := true
                     allow_indirect_connection := true
                     high := 1 }
      else if SYMBOL.defined_number_set_start ∈ m then do
        let bounds ← decode_repeat_symbol m
        let c := { c with low := bounds.1
                          high := bounds.2
                          allow_indirect_connection := true }
        .ok (if c.low = (0 : Int) then { c with direct_connection_first := true }
             else { c with direct_connection_first := false })
      else .ok c
    define_skipping_properties rest c

/-- `TreePattern.set_controller` on a single node: strips metacharacters
(only when the name is non-empty), installs the defaults, folds in the
skipping properties, rewrites the name to a python expression, applies
the three `SET` rewrites, and reports whether the node is a single-match
(extreme selector) node. -/
def set_controller (name : PStr) : Except MErr (PStr × Ctrl × Bool) := do
  let (metas, name) :=
    if name.length > 0 then parse_metacharacters name else ([], name)
  let ctrl ← define_skipping_properties metas defaultCtrl
  let name := parse_node_name name
  let name :=
    if pyContains SET.any_child name then
      let parts := pySplitStr "[".toList name
      " any( ".toList ++ parts.getD 0 [] ++ [' '] ++
        (pyReplaceStr SET.any_child "x".toList ('[' :: parts.getD 1 [])) ++
        " for x in __target_node.children)".toList
    else name
  let name :=
    if pyContains SET.children name then
      " all( ".toList ++ (pySplitStr "[".toList name).getD 0 [] ++ [' '] ++
        (pyReplaceStr SET.children "x".toList
          ('[' :: (pySplitStr "[".toList name).getD 1 [])) ++
        " for x in __target_node.children)".toList
    else name
  let (name, ctrl) :=
    if pyContains SET.all_nodes name then
      ([SYMBOL.node_reference],
       { ctrl with single_match := true, single_match_contstraint := name })
    else (name, ctrl)
  .ok (name, ctrl, ctrl.single_match)

/-! ### The constraint evaluator (`eval` oracle and `is_local_match`) -/

/-- The matcher evaluates constraint strings with Python `eval` in a scope
assembled from a syntax object.  The embedding abstracts `eval` as an
oracle: `evalN` is evaluation in the pattern node's own scope, `evalR` the
retry in the root node's scope; `evalC`/`evalCR` are the corresponding
two-node evaluations used by `find_extreme_case`. -/
structure EvalOracle where
  evalN : PStr → TRef → EvalRes
  evalR : PStr → TRef → EvalRes
  evalC : PStr → TRef → TRef → EvalRes
  evalCR : PStr → TRef → TRef → EvalRes

/-- The anchor constraint string for the root check. -/
def isRootStr : PStr := "__target_node.is_root()".toList

/-- The anchor constraint string for the leaf check. -/
def isLeafStr : PStr := "__target_node.is_leaf()".toList

/-- The literal constraint prefix generated for an exact-name test. -/
def nameEqPre : PStr := "__target_node.name == ".toList ++ ['"']

/-- The exact-name constraint `__target_node.name == "nm"` built by
`is_local_match`. -/
def mkNameEq (nm : PStr) : PStr := nameEqPre ++ nm ++ ['"']

/-- Recognizer for the exact-name constraint shape. -/
def matchNameEq (s : PStr) : Option PStr :=
  if nameEqPre.isPrefixOf s then
    let rest := s.drop nameEqPre.length
    match rest.getLast? with
    | some q =>
        if q = '"' ∧ '"' ∉ rest.dropLast ∧ rest.length ≥ 1 then some rest.dropLast
        else none
    | none => none
  else none

/-- Concrete model of Python `eval` restricted to the constraint shapes the
compiler itself generates: the two anchor tests and the exact-name test.
Any other string (an unknown helper, a compound expression, a reference to
an attribute the embedding does not model) is reported as an
unresolved-name error. -/
def pyEval (s : PStr) (t : TRef) : EvalRes :=
  if s = isRootStr then .ok t.isRoot
  else if s = isLeafStr then .ok t.tree.children.isEmpty
  else
    match matchNameEq s with
    | some nm => .ok (t.tree.name == nm)
    | none => .nameE

/-- The default oracle: both scopes hold the same default `PatternSyntax`,
and extreme-selector constraints are outside the modelled fragment. -/
def pyOracle : EvalOracle :=
  { evalN := pyEval
    evalR := pyEval
    evalC := fun _ _ _ => .nameE
    evalCR := fun _ _ _ => .nameE }

/-- The sequential constraint evaluation of `is_local_match`: Python runs
`st &= eval(constraint)` over the whole list (no short-circuit), the empty
constraint contributing `True`; the first exception aborts the loop. -/
def evalLoop (f : PStr → TRef → EvalRes) (t : TRef) : List PStr → Bool → EvalRes
  | [], st => .ok st
  | c :: rest, st =>
      if c = [] then evalLoop f t rest st
      else
        match f c t with
        | .ok b => evalLoop f t rest (st && b)
        | e => e

/-- `TreePattern.is_local_match`: builds the constraint list (anchors, then
the name-derived constraint), evaluates it, and reproduces the exception
handling of the source: `ValueError` and `AttributeError`/`IndexError`
become a `ValueError`; a `NameError` triggers one retry against the root
node's scope, whose own `NameError` is re-raised and whose other
exceptions propagate unwrapped. -/
def is_local_match (p : PTree) (t : TRef) (ev : EvalOracle) : Except MErr Bool :=
  let constraints :=
    (if p.ctrl.root then [isRootStr] else []) ++
    (if p.ctrl.leaf then [isLeafStr] else []) ++
    [if p.name = [] then []
     else if '@' ∈ p.name then
       if p.name.length = 1 then []
       else pyReplace '@' "__target_node".toList p.name
     else if p.ctrl.allow_indirect_connection then []
     else mkNameEq p.name]
  match evalLoop ev.evalN t constraints true with
  | .ok st => .ok st
  | .valueE => .error .value
  | .attrE => .error .value
  | .nameE =>
      match evalLoop ev.evalR t constraints true with
      | .ok st => .ok st
      | .nameE => .error .name
      | .valueE => .error .value
      | .attrE => .error .attr

/-! ### Tree traversal (modelled ete3 primitives) -/

/-- Builds the list of child references of a node: each child paired with
its sisters (`get_sisters()` returns the other children of the parent, in
order). -/
def withSisAux : List ETree → List ETree → List TRef
  | [], _ => []
  | c :: rest, pre => ⟨c, false, pre.reverse ++ rest⟩ :: withSisAux rest (c :: pre)

/-- Child references of a list of children. -/
def childRefs (ch : List ETree) : List TRef := withSisAux ch []

/-- Modelled ete3 `traverse("preorder")` with an explicit work list.  The
fuel counts visited nodes; running out is reported as an error, never as
a silently truncated traversal, so an `ok` result is the complete
traversal. -/
def preAux : Nat → List TRef → Except MErr (List TRef)
  | _, [] => .ok []
  | fuel, x :: rest =>
    match fuel with
    | 0 => .error .fuel
    | fuel + 1 =>
      match preAux fuel (childRefs x.tree.children ++ rest) with
      | .ok l => .ok (x :: l)
      | .error e => .error e

/-- Modelled ete3 `traverse("levelorder")` (the default strategy) with an
explicit queue, fueled like `preAux`. -/
def levAux : Nat → List TRef → Except MErr (List TRef)
  | _, [] => .ok []
  | fuel, x :: rest =>
    match fuel with
    | 0 => .error .fuel
    | fuel + 1 =>
      match levAux fuel (rest ++ childRefs x.tree.children) with
      | .ok l => .ok (x :: l)
      | .error e => .error e

/-- The traversal strategies `find_match` is invoked with. -/
inductive Strategy where
  | preorder
  | levelorder
deriving DecidableEq

/-- Modelled ete3 `tree.traverse(strategy)` from the root of a target
tree. -/
def traverseT (fuel : Nat) (st : Strategy) (t : ETree) : Except MErr (List TRef) :=
  match st with
  | .preorder => preAux fuel [⟨t, true, []⟩]
  | .levelorder => levAux fuel [⟨t, true, []⟩]

/-- Levelorder traversal of a compiled pattern tree (ete3 `traverse()`
with its default strategy, as used by `find_match` and
`find_extreme_case` on the pattern). -/
def levPAux : Nat → List PTree → Except MErr (List PTree)
  | _, [] => .ok []
  | fuel, x :: rest =>
    match fuel with
    | 0 => .error .fuel
    | fuel + 1 =>
      match levPAux fuel (rest ++ x.children) with
      | .ok l => .ok (x :: l)
      | .error e => .error e

/-- `itertools.permutations` in its generation order: lexicographic in the
positions of the input list. -/
def selections : List α → List (α × List α)
  | [] => []
  | x :: xs => (x, xs) :: (selections xs).map (fun p => (p.1, x :: p.2))

/-- List concatenation of a map (avoids depending on library `flatMap`). -/
def concatMap (f : α → List β) : List α → List β
  | [] => []
  | x :: xs => f x ++ concatMap f xs

/-- Fueled permutation generator (fuel is the list length). -/
def lexPermsAux : Nat → List α → List (List α)
  | 0, _ => [[]]
  | _ + 1, [] => [[]]
  | fuel + 1, l => concatMap (fun p => (lexPermsAux fuel p.2).map (p.1 :: ·)) (selections l)

/-- All permutations of a list in `itertools.permutations` order. -/
def lexPerms (l : List α) : List (List α) := lexPermsAux l.length l

/-! ### Pattern addressing (mutable `controller["skipped"]` state) -/

/-- The pattern node at a path from the pattern root (paths are valid by
construction everywhere the matcher uses them). -/
def getP : List Nat → PTree → PTree
  | [], p => p
  | i :: rest, p => getP rest ((p.children.get? i).getD default)

/-- Structure-preserving update of the controller of the node at a path. -/
def modifyAt : List Nat → (Ctrl → Ctrl) → PTree → PTree
  | [], f, .node n c ch => .node n (f c) ch
  | i :: rest, f, .node n c ch =>
      .node n c (ch.set i (modifyAt rest f ((ch.get? i).getD default)))

/-- `controller["skipped"] += d` at a path. -/
def modifySkip (path : List Nat) (d : Int) (root : PTree) : PTree :=
  modifyAt path (fun c => { c with skipped := c.skipped + d }) root

/-! ### The matching engine (`TreePattern.match`) -/

/-- Type of the recursive matcher handed to the loop bodies: pattern tree,
path of the pattern node being matched, candidate target node. -/
abbrev MatchRec := PTree → List Nat → TRef → Except MErr (Bool × PTree)

/-- State of the inner `while i < len(self.children)` loop: the threaded
pattern tree, `sub_status`, `sub_status_count`, `test_children_properties`
and `continious_matched` (spelling from the source). -/
structure WState where
  root : PTree
  subStatus : Bool
  count : Nat
  testProps : Bool
  contin : List Nat

/-- State of the permutation loop: `WState` plus the running `status`. -/
structure NState where
  root : PTree
  status : Bool
  count : Nat
  testProps : Bool
  contin : List Nat

/-- The `while i < len(self.children)` loop of `TreePattern.match`: walks
the pattern children (index `i`) against a permutation of the candidate
children (index `j`).  A pattern child that is a leaf and allows indirect
connection (or negation) switches the loop into counting mode
(`test_children_properties`), advancing only `j` and recording runs of
consecutive matches; otherwise a match is gated by the node's lower bound
and a failed match against a candidate with children is skipped (`pass`)
when the node allows indirect connection. -/
def whileLoop (mrec : MatchRec) (spath : List Nat) (cand : List TRef) :
    Nat → Nat → Nat → Nat → WState → Except MErr WState
  | 0, _, _, _, _ => .error .fuel
  | wfuel + 1, i, j, curMatched, st =>
    if i < (getP spath st.root).children.length then
      match cand.get? j with
      | none => .error .index
      | some tj =>
        match mrec st.root (spath ++ [i]) tj with
        | .error e => .error e
        | .ok (b, root') =>
          let qc := ((getP spath root').children.get? i).getD default
          if qc.children.isEmpty &&
             (qc.ctrl.allow_indirect_connection || qc.ctrl.ctrl_not) &&
             st.subStatus then
            let curMatched := if b then curMatched + 1 else curMatched
            let j := j + 1
            if j < cand.length then
              whileLoop mrec spath cand wfuel i j curMatched
                { st with root := root', testProps := true }
            else
              let contin :=
                if curMatched > 0 then st.contin ++ [curMatched] else st.contin
              whileLoop mrec spath cand wfuel (i + 1) (j + 1) 0
                { st with root := root', testProps := true, contin := contin }
          else
            let selfC := (getP spath root').ctrl
            let b := if b && ¬ is_in_bounds selfC true selfC.skipped then false else b
            if b = false && selfC.allow_indirect_connection &&
               ¬ ((cand.get? i).getD default).tree.children.isEmpty then
              whileLoop mrec spath cand wfuel (i + 1) (j + 1) curMatched
                { st with root := root' }
            else
              let subStatus := st.subStatus && b
              let count := if subStatus then st.count + 1 else st.count
              whileLoop mrec spath cand wfuel (i + 1) (j + 1) curMatched
                { st with root := root', subStatus := subStatus, count := count }
    else .ok st

/-- The `for candidate in permutations(node.children)` loop: each
candidate starts with `sub_status = True` and `current_matched = 0`;
`sub_status_count`, `test_children_properties` and `continious_matched`
persist across candidates.  A candidate that did not enter counting mode
and succeeded with a positive count sets `status` and breaks; otherwise
`status` is cleared and the next permutation is tried. -/
def permLoop (mrec : MatchRec) (spath : List Nat) :
    List (List TRef) → NState → Except MErr NState
  | [], ns => .ok ns
  | cand :: rest, ns =>
    let qlen := (getP spath ns.root).children.length
    match whileLoop mrec spath cand (qlen + cand.length + 2) 0 0 0
            ⟨ns.root, true, ns.count, ns.testProps, ns.contin⟩ with
    | .error e => .error e
    | .ok st =>
      if st.testProps then
        permLoop mrec spath rest
          ⟨st.root, ns.status, st.count, st.testProps, st.contin⟩
      else if st.subStatus && st.count > 0 then
        .ok ⟨st.root, true, st.count, st.testProps, st.contin⟩
      else
        permLoop mrec spath rest
          ⟨st.root, false, st.count, st.testProps, st.contin⟩

/-- The `for node in nodes` loop of `TreePattern.match`: nodes with too
few children are skipped (their `sub_status_count` is 0, so the break
test fails); for the others the permutation loop runs and, if counting
mode was entered, the recorded runs are folded through the trailing
pattern child's bounds (defaulting to success when the trailing child is
`direct_connection_first` and no run was recorded, and negating under its
negation flag). -/
def nodesLoop (mrec : MatchRec) (spath : List Nat) :
    List ETree → Bool → PTree → Except MErr (Bool × PTree)
  | [], status, root => .ok (status, root)
  | nd :: rest, status, root =>
    let qlen := (getP spath root).children.length
    if qlen ≤ nd.children.length then
      match permLoop mrec spath (lexPerms (childRefs nd.children))
              ⟨root, status, 0, false, []⟩ with
      | .error e => .error e
      | .ok ns =>
        let res :=
          if ns.testProps then
            let lastC := ((getP spath ns.root).children.getLast?).getD default
            let subSub :=
              if ns.contin ≠ [] then
                ns.contin.any (fun con =>
                  is_in_bounds lastC.ctrl true (con : Int) &&
                  is_in_bounds lastC.ctrl false (con : Int))
              else if lastC.ctrl.direct_connection_first then true
              else false
            let subSub := if lastC.ctrl.ctrl_not then !subSub else subSub
            (subSub, ns.count + (if subSub then 1 else 0))
          else (ns.status, ns.count)
        if res.1 && res.2 > 0 then .ok (res.1, ns.root)
        else nodesLoop mrec spath rest res.1 ns.root
    else nodesLoop mrec spath rest status root

/-- The child-resolution block of `TreePattern.match`: when the target
node has fewer children than the pattern node and indirect connection is
allowed, a levelorder scan of the target subtree finds the first node
with enough children, which is retried together with its sisters;
otherwise the match fails.  The resulting anchor nodes are then run
through `nodesLoop`. -/
def childrenBlock (mrec : MatchRec) (scanFuel : Nat) (spath : List Nat)
    (root : PTree) (t : TRef) : Except MErr (Bool × PTree) :=
  let qlen := (getP spath root).children.length
  match (if t.tree.children.length < qlen then
           if (getP spath root).ctrl.allow_indirect_connection then
             match levAux scanFuel [t] with
             | .error e => .error e
             | .ok trav =>
               match trav.find? (fun x => qlen ≤ x.tree.children.length) with
               | some x => .ok (true, x.tree :: x.sisters)
               | none => .ok (false, ([] : List ETree))
           else .ok (false, ([] : List ETree))
         else .ok (true, ([] : List ETree)) :
          Except MErr (Bool × List ETree)) with
  | .error e => .error e
  | .ok scan =>
    let nds := if scan.2.isEmpty then [t.tree] else scan.2
    nodesLoop mrec spath nds scan.1 root

/-- One invocation of `TreePattern.match` given the recursive matcher for
the child calls.  Stages: the `direct_connection_first` redirection to the
single child, the local match, the skip resolution (deferred success for
an indirect leaf; skip-up into the parent incrementing its counter when
within the parent's upper bound; the consumed-skip bookkeeping on
success), the child resolution, and the final decrement of the skip
counter on failure.  The source line `if not self.is_leaf and
self.controller["not"]` tests the bound method object `self.is_leaf`,
which is always truthy, so the negation there never fires and is not
represented. -/
def matchStep (ev : EvalOracle) (mrec : MatchRec) (scanFuel : Nat)
    (root0 : PTree) (path0 : List Nat) (t : TRef) : Except MErr (Bool × PTree) :=
  let self0 := getP path0 root0
  let path :=
    if self0.ctrl.direct_connection_first && ¬ self0.children.isEmpty then
      path0 ++ [0]
    else path0
  match is_local_match (getP path root0) t ev with
  | .error e => .error e
  | .ok status0 =>
    let step :=
      if ¬ status0 then
        if (getP path root0).ctrl.allow_indirect_connection &&
           (getP path root0).children.isEmpty then
          (false, path, root0)
        else if path ≠ [] then
          let pp := path.dropLast
          let up := getP pp root0
          if up.ctrl.allow_indirect_connection &&
             is_in_bounds up.ctrl false (up.ctrl.skipped + 1) then
            (true, pp, modifySkip pp 1 root0)
          else (false, path, root0)
        else (false, path, root0)
      else
        if (getP path root0).ctrl.allow_indirect_connection &&
           (getP path root0).ctrl.skipped = 0 then
          (true, path, modifySkip path 1 root0)
        else (true, path, root0)
    let status1 := step.1
    let path1 := step.2.1
    let root1 := step.2.2
    match (if status1 && ¬ (getP path1 root1).children.isEmpty then
             childrenBlock mrec scanFuel path1 root1 t
           else .ok (status1, root1)) with
    | .error e => .error e
    | .ok (status2, root2) =>
      let root3 :=
        if ¬ status2 && (getP path1 root2).ctrl.allow_indirect_connection then
          modifySkip path1 (-1) root2
        else root2
      .ok (status2, root3)

/-- The fueled recursive matcher; every recursive call descends strictly
into the target subtree, so any fuel at least the size of the target
suffices (exhaustion is a visible error, never a wrong answer). -/
def matchF (ev : EvalOracle) : Nat → PTree → List Nat → TRef → Except MErr (Bool × PTree)
  | 0, _, _, _ => .error .fuel
  | fuel + 1, root, path, t => matchStep ev (matchF ev fuel) fuel root path t

/-- `TreePattern.match` rooted at a target node. -/
def matchOne (ev : EvalOracle) (fuel : Nat) (p : PTree) (t : TRef) :
    Except MErr (Bool × PTree) :=
  matchF ev fuel p [] t

/-! ### Compilation of a whole pattern and `find_match` -/

/-- The `for node in one_use_pattern.traverse(): single |= node.set_controller()`
phase of `find_match`: compiles every node of the raw pattern and ORs the
single-match flags (the traversal order is immaterial for an OR). -/
def compilePattern : Nat → ETree → Except MErr (PTree × Bool)
  | 0, _ => .error .fuel
  | fuel + 1, .node nm ch => do
    let r ← set_controller nm
    let results ← ch.mapM (compilePattern fuel)
    let single := results.foldl (fun acc q => acc || q.2) r.2.2
    .ok (.node r.1 r.2.1 (results.map Prod.fst), single)

/-- `TreePattern.find_extreme_case`: the last single-match node of the
pattern's levelorder traversal provides the cross-candidate constraint
(`pattern` is rebound on every hit); `match_list[0]` raises `IndexError`
on an empty candidate list; then the candidates are folded, the running
best being replaced whenever the constraint evaluates to true.  The
`AttributeError`/`IndexError` handler formats an undefined variable and
therefore actually raises `NameError`. -/
def extremeFold (ev : EvalOracle) (constraint : PStr) :
    List TRef → TRef → Except MErr TRef
  | [], correct => .ok correct
  | node :: rest, correct =>
    match ev.evalC constraint node correct with
    | .ok st => extremeFold ev constraint rest (if st then node else correct)
    | .valueE => .error .value
    | .attrE => .error .name
    | .nameE =>
      match ev.evalCR constraint node correct with
      | .ok st => extremeFold ev constraint rest (if st then node else correct)
      | .nameE => .error .name
      | .valueE => .error .value
      | .attrE => .error .attr

/-- `TreePattern.find_extreme_case` (see `extremeFold`). -/
def find_extreme_case (ev : EvalOracle) (fuel : Nat) (p : PTree)
    (ml : List TRef) : Except MErr TRef :=
  match levPAux fuel [p] with
  | .error e => .error e
  | .ok travP =>
    let singles := travP.filter (fun n => n.ctrl.single_match)
    match ml with
    | [] => .error .index
    | m0 :: _ =>
      match singles.getLast? with
      | none => .error .name
      | some pat =>
        let constraint :=
          pyReplaceStr SET.all_nodes "__correct_node".toList
            (pyReplace '@' "__target_node".toList
              pat.ctrl.single_match_contstraint)
        extremeFold ev constraint ml m0

/-- The single-match branch of `find_match`: collect every matching target
node over the full traversal, threading the pattern state. -/
def scanMatches (ev : EvalOracle) (fuel : Nat) : PTree → List TRef → List TRef →
    Except MErr (List TRef × PTree)
  | p, [], acc => .ok (acc.reverse, p)
  | p, t :: ts, acc =>
    match matchOne ev fuel p t with
    | .error e => .error e
    | .ok (b, p') => scanMatches ev fuel p' ts (if b then t :: acc else acc)

/-- The ordinary branch of `find_match`: yield each matching node, then
break once `num_hits >= maxhits` (when `maxhits` is not `None`); note the
yield happens before the break test. -/
def matchLoop (ev : EvalOracle) (fuel : Nat) : PTree → List TRef → Int → Option Int →
    Except MErr (List TRef)
  | _, [], _, _ => .ok []
  | p, t :: ts, numHits, maxhits =>
    match matchOne ev fuel p t with
    | .error e => .error e
    | .ok (b, p') =>
      let numHits := if b then numHits + 1 else numHits
      let out := if b then [t] else []
      let brk :=
        match maxhits with
        | some k => decide (k ≤ numHits)
        | none => false
      if brk then .ok out
      else
        match matchLoop ev fuel p' ts numHits maxhits with
        | .error e => .error e
        | .ok rest => .ok (out ++ rest)

/-- `TreePattern.find_match`: compiles the controllers of (the deep copy
of) the pattern, then either collects all candidates and applies
`find_extreme_case` (single-match patterns, `maxhits` unused) or streams
matches up to `maxhits`. -/
def find_match (fuel : Nat) (raw : ETree) (tree : ETree) (maxhits : Option Int)
    (strat : Strategy) (ev : EvalOracle) : Except MErr (List TRef) :=
  match compilePattern fuel raw with
  | .error e => .error e
  | .ok (p, single) =>
    match traverseT fuel strat tree with
    | .error e => .error e
    | .ok trav =>
      if single then
        match scanMatches ev fuel p trav [] with
        | .error e => .error e
        | .ok (ms, p') =>
          match find_extreme_case ev fuel p' ms with
          | .error e => .error e
          | .ok x => .ok [x]
      else matchLoop ev fuel p trav 0 maxhits

/-- `find_match` seen as an operation on the caller's pattern object:
`one_use_pattern = copy.deepcopy(self)` makes every controller write
(name rewriting in `set_controller`, `skipped` mutation in `match`) land
on the copy, so at the value level the caller's pattern is returned
unchanged.  The second component is the state of the caller's pattern
object after the call. -/
def find_match_prog (fuel : Nat) (self : ETree) (tree : ETree)
    (maxhits : Option Int) (strat : Strategy) (ev : EvalOracle) :
    Except MErr (List TRef) × ETree :=
  (find_match fuel self tree maxhits strat ev, self)

/-! ### Concrete patterns and targets used in the theorems -/

/-- Shorthand for building trees with `String` labels. -/
def nodeE (s : String) (ch : List ETree) : ETree := .node s.toList ch

/-- The pattern `((c)+)a;` as parsed by ete3: root `a`, one child labelled
with the one-or-more marker, grandchild `c`. -/
def rawPlusCA : ETree := nodeE "a" [nodeE "+" [nodeE "c" []]]

/-- The pattern `((c)*)a;`. -/
def rawStarCA : ETree := nodeE "a" [nodeE "*" [nodeE "c" []]]

/-- The target `((c,g)a);` as parsed by ete3: an unnamed root above `a`. -/
def targetCG : ETree := nodeE "" [nodeE "a" [nodeE "c" [], nodeE "g" []]]

/-- A chain of single-child intermediate nodes ending at a leaf `c`:
`chainT 0` is the leaf `c` itself and `chainT (n+1)` wraps it in one more
intermediate node `b`. -/
def chainT : Nat → ETree
  | 0 => nodeE "c" []
  | n + 1 => nodeE "b" [chainT n]

/-- The target tree whose root child `a` is separated from `c` by exactly
`n` single-child intermediates (ete3 adds the unnamed root). -/
def targetChain (n : Nat) : ETree := nodeE "" [nodeE "a" [chainT n]]

/-- `TreePattern.__init__` after the (external, out-of-scope) newick
parsing: it only attaches a syntax controller object; the `# check the
tree syntax.` comment in the source has no code behind it, so no marker
validation happens at construction time. -/
def TreePattern_init (parsed : ETree) : Except MErr ETree := .ok parsed

/-- A pattern whose bounded-count marker has a non-numeric bound: the node
label is `c{x}`. -/
def rawBadBound : ETree :=
  nodeE "a" [ETree.node ['c', '\x7b', 'x', '\x7d'] []]

/-! ## Claims -/

/-- C7: compiling a node label maps quantifier markers to descriptors as
specified: one-or-more gives low 1, high -1 (default), indirect allowed,
not direct-first; zero-or-more gives indirect allowed, direct-first, with
the default bounds low 0 / high -1; zero-or-one gives indirect allowed,
direct-first, high 1; the bounded forms parse as low 2 / high 5, low 2 /
high -1 (omitted high unbounded), low 0 (omitted low) / high 5, and
low = high = 3 for a single number; and any bounded marker yields
indirect allowed with direct-first exactly when the low bound is zero. -/
theorem C7_compile_quantifier_mapping :
    (set_controller "c+".toList =
       .ok ("@.name == \"c\"".toList,
            { defaultCtrl with
                allow_indirect_connection := true
                direct_connection_first := false
                low := 1 }, false)) ∧
    (set_controller "c*".toList =
       .ok ("@.name == \"c\"".toList,
            { defaultCtrl with
                allow_indirect_connection := true
                direct_connection_first := true }, false)) ∧
    (set_controller "c?".toList =
       .ok ("@.name == \"c\"".toList,
            { defaultCtrl with
                allow_indirect_connection := true
                direct_connection_first := true
                high := 1 }, false)) ∧
    (decode_repeat_symbol ['\x7b', '2', '-', '5', '\x7d'] = .ok (2, 5)) ∧
    (decode_repeat_symbol ['\x7b', '2', '-', '\x7d'] = .ok (2, -1)) ∧
    (decode_repeat_symbol ['\x7b', '-', '5', '\x7d'] = .ok (0, 5)) ∧
    (decode_repeat_symbol ['\x7b', '3', '\x7d'] = .ok (3, 3)) ∧
    (∀ (m : PStr) (lo hi : Int) (c : Ctrl), 2 ≤ m.length →
       SYMBOL.defined_number_set_start ∈ m →
       decode_repeat_symbol m = .ok (lo, hi) →
       define_skipping_properties [m] c =
         .ok { c with low := lo, high := hi,
                      allow_indirect_connection := true,
                      direct_connection_first := decide (lo = 0) }) := by
  refine ⟨rfl, rfl, rfl, rfl, rfl, rfl, rfl, ?_⟩
  intro m lo hi c hlen hmem hdec
  have h1 : m ≠ [SYMBOL.is_root] := by intro h; subst h; simp at hlen
  have h2 : m ≠ [SYMBOL.is_leaf] := by intro h; subst h; simp at hlen
  have h3 : m ≠ [SYMBOL.sym_not] := by intro h; subst h; simp at hlen
  have h4 : m ≠ [SYMBOL.one_or_more] := by intro h; subst h; simp at hlen
  have h5 : m ≠ [SYMBOL.zero_or_more] := by intro h; subst h; simp at hlen
  have h6 : m ≠ [SYMBOL.zero_or_one] := by intro h; subst h; simp at hlen
  simp only [define_skipping_properties, h1, h2, h3, h4, h5, h6, hmem,
    if_neg, if_pos, ite_false, ite_true, hdec]
  by_cases hlo : lo = (0 : Int) <;>
    simp [hlo, Bind.bind, Except.bind, define_skipping_properties]

/-- C7 witness: the general bounded-marker clause instantiated at the
concrete marker with bounds 0 and 3 (where direct-first must be set). -/
theorem C7_compile_quantifier_mapping_witness :
    define_skipping_properties [['\x7b', '0', '-', '3', '\x7d']] defaultCtrl =
      .ok { defaultCtrl with low := 0, high := 3,
                             allow_indirect_connection := true,
                             direct_connection_first := true } := by
  have h := C7_compile_quantifier_mapping.2.2.2.2.2.2.2
    ['\x7b', '0', '-', '3', '\x7d'] 0 3 defaultCtrl (by decide) (by decide) rfl
  simpa using h

/-- C6 counterexample: compiling the pattern whose bounded marker is the
non-numeric `c{x}` succeeds (`TreePattern.__init__` performs no marker
validation), and the `ValueError` from `int` only surfaces once a search
is run; the claim instead asserts a compile-time failure before any
search. -/
theorem C6_counterexample :
    TreePattern_init rawBadBound = .ok rawBadBound ∧
    find_match 20 rawBadBound (nodeE "" []) (some 1) .preorder pyOracle =
      .error .value :=
  ⟨rfl, rfl⟩

/-- C6 amended: a malformed (non-numeric) bounded-count marker does not
fail at pattern-construction time; construction succeeds, and every
subsequent search fails with the `ValueError` kind while compiling the
controllers, before any target node is examined (the error is independent
of the target tree, the hit limit, the traversal strategy and the
evaluation oracle). -/
theorem C6_amended (t : ETree) (mh : Option Int) (strat : Strategy)
    (ev : EvalOracle) (fuel : Nat) :
    TreePattern_init rawBadBound = .ok rawBadBound ∧
    find_match (fuel + 2) rawBadBound t mh strat ev = .error .value := by
  constructor
  · rfl
  · have hbad : set_controller ['c', '\x7b', 'x', '\x7d'] = .error .value := rfl
    have hok : set_controller ['a'] =
        .ok ("@.name == \"a\"".toList, defaultCtrl, false) := rfl
    simp [find_match, compilePattern, rawBadBound, nodeE, hok, hbad,
      Bind.bind, Except.bind, List.mapM, List.mapM.loop]

/-- C6 witness: the amended statement at a concrete target, hit limit,
strategy, oracle and fuel. -/
theorem C6_amended_witness :
    TreePattern_init rawBadBound = .ok rawBadBound ∧
    find_match 12 rawBadBound targetCG (some 1) .preorder pyOracle =
      .error .value :=
  C6_amended targetCG (some 1) .preorder pyOracle 10

/-- Evaluation of the generated exact-name constraint under the concrete
oracle: it parses back to an equality test on the target node's name. -/
theorem pyEval_mkNameEq (nm : PStr) (t : TRef) (h : '"' ∉ nm) :
    pyEval (mkNameEq nm) t = .ok (t.tree.name == nm) := by
  have h1 : mkNameEq nm ≠ isRootStr := by
    intro he
    have := congrArg List.length he
    simp [mkNameEq, nameEqPre, isRootStr] at this
  have h2 : mkNameEq nm ≠ isLeafStr := by
    intro he
    have := congrArg List.length he
    simp [mkNameEq, nameEqPre, isLeafStr] at this
  have hpre : nameEqPre.isPrefixOf (mkNameEq nm) = true := by
    rw [List.isPrefixOf_iff_prefix]
    have : mkNameEq nm = nameEqPre ++ (nm ++ ['"']) := by
      simp [mkNameEq]
    rw [this]
    exact List.prefix_append _ _
  have hdrop : (mkNameEq nm).drop nameEqPre.length = nm ++ ['"'] := by
    have : mkNameEq nm = nameEqPre ++ (nm ++ ['"']) := by
      simp [mkNameEq]
    rw [this]
    exact List.drop_left _ _
  simp only [pyEval, h1, h2, if_neg, matchNameEq, hpre, if_true, hdrop]
  simp [h, List.getLast?_append]

/-- C10: on a compiled pattern node that allows indirect connection, a
non-empty residual name with no node reference imposes no constraint at
all: the local match succeeds for every target node and every evaluation
oracle when no anchor is present, and reduces to exactly the root/leaf
anchor checks otherwise; whereas the same residual name on a node without
a quantifier is evaluated as an exact name-equality test against the
target node. -/
theorem C10_is_local_match_residual :
    (∀ (nm : PStr) (c : Ctrl) (ch : List PTree) (t : TRef) (ev : EvalOracle),
        c.allow_indirect_connection = true → c.root = false → c.leaf = false →
        nm ≠ [] → '@' ∉ nm →
        is_local_match (.node nm c ch) t ev = .ok true) ∧
    (∀ (nm : PStr) (c : Ctrl) (ch : List PTree) (t : TRef),
        c.allow_indirect_connection = true → nm ≠ [] → '@' ∉ nm →
        is_local_match (.node nm c ch) t pyOracle =
          .ok ((if c.root then t.isRoot else true) &&
               (if c.leaf then t.tree.children.isEmpty else true))) ∧
    (∀ (nm : PStr) (ch : List PTree) (t : TRef),
        nm ≠ [] → '@' ∉ nm → '"' ∉ nm →
        is_local_match (.node nm defaultCtrl ch) t pyOracle =
          .ok (t.tree.name == nm)) := by
  refine ⟨?_, ?_, ?_⟩
  · intro nm c ch t ev hind hroot hleaf hne hat
    simp [is_local_match, PTree.ctrl, PTree.name, hind, hroot, hleaf, hne, hat, evalLoop]
  · intro nm c ch t hind hne hat
    have hr : pyEval isRootStr t = .ok t.isRoot := rfl
    have hl : pyEval isLeafStr t = .ok t.tree.children.isEmpty := rfl
    have hr0 : isRootStr ≠ [] := by decide
    have hl0 : isLeafStr ≠ [] := by decide
    rcases hcr : c.root <;> rcases hcl : c.leaf <;>
      simp [is_local_match, PTree.ctrl, PTree.name, hind, hcr, hcl, hne, hat,
        evalLoop, pyOracle, hr, hl, hr0, hl0]
  · intro nm ch t hne hat hq
    have hname := pyEval_mkNameEq nm t hq
    have hmk : mkNameEq nm ≠ [] := by simp [mkNameEq, nameEqPre]
    simp [is_local_match, PTree.ctrl, PTree.name, defaultCtrl, hne, hat, evalLoop,
      pyOracle, hname, hmk]

/-- C10 witness: the residual text `x1` (not purely alphabetic, so left
unrewritten by the compiler) is ignored on an indirect-connection node
but acts as an exact name test on a plain node. -/
theorem C10_is_local_match_residual_witness :
    is_local_match
      (.node ['x', '1'] { defaultCtrl with allow_indirect_connection := true } [])
      ⟨nodeE "q" [], false, []⟩ pyOracle = .ok true ∧
    is_local_match (.node ['x', '1'] defaultCtrl [])
      ⟨nodeE "q" [], false, []⟩ pyOracle = .ok false ∧
    is_local_match (.node ['x', '1'] defaultCtrl [])
      ⟨nodeE "x1" [], false, []⟩ pyOracle = .ok true := by
  refine ⟨?_, ?_, ?_⟩
  · exact C10_is_local_match_residual.1 ['x', '1'] _ [] _ pyOracle rfl rfl rfl
      (by decide) (by decide)
  · have h := C10_is_local_match_residual.2.2 ['x', '1'] []
      ⟨nodeE "q" [], false, []⟩ (by decide) (by decide) (by decide)
    simpa using h
  · have h := C10_is_local_match_residual.2.2 ['x', '1'] []
      ⟨nodeE "x1" [], false, []⟩ (by decide) (by decide) (by decide)
    simpa using h

/-- Prefix property of the streaming loop: when the unbounded run
succeeds, the run bounded by `k` (with `numHits` so far strictly below
`k`) yields exactly the corresponding prefix of the unbounded result. -/
theorem matchLoop_take (ev : EvalOracle) (fuel : Nat) (k : Int) :
    ∀ (l : List TRef) (p : PTree) (c : Int) (res : List TRef),
      c < k →
      matchLoop ev fuel p l c none = .ok res →
      matchLoop ev fuel p l c (some k) = .ok (res.take (k - c).toNat) := by
  intro l
  induction l with
  | nil =>
    intro p c res hck h
    simp only [matchLoop] at h
    injection h with h
    simp [matchLoop, ← h]
  | cons t ts ih =>
    intro p c res hck h
    simp only [matchLoop] at h ⊢
    cases hm : matchOne ev fuel p t with
    | error e => rw [hm] at h; simp at h
    | ok bp =>
      rw [hm] at h
      obtain ⟨b, p'⟩ := bp
      simp only at h ⊢
      cases b with
      | false =>
        simp only [Bool.false_eq_true, if_false, ite_false, List.nil_append] at h ⊢
        cases hr : matchLoop ev fuel p' ts c none with
        | error e => rw [hr] at h; simp at h
        | ok res' =>
          rw [hr] at h
          injection h with h
          have hbrk : decide (k ≤ c) = false := by
            simp only [decide_eq_false_iff_not]; omega
          rw [hbrk]
          simp only [Bool.false_eq_true, if_false]
          rw [ih p' c res' hck hr]
          simp [← h]
      | true =>
        simp only [if_true, ite_true, List.singleton_append] at h ⊢
        cases hr : matchLoop ev fuel p' ts (c + 1) none with
        | error e => rw [hr] at h; simp at h
        | ok res' =>
          rw [hr] at h
          simp only at h
          injection h with h
          by_cases hbrk : k ≤ c + 1
          · rw [show decide (k ≤ c + 1) = true by simpa using hbrk]
            simp only [if_true]
            have h1 : (k - c).toNat = 1 := by omega
            simp [← h, h1]
          · rw [show decide (k ≤ c + 1) = false by simpa using hbrk]
            simp only [Bool.false_eq_true, if_false]
            rw [ih p' (c + 1) res' (by omega) hr]
            have h1 : (k - c).toNat = (k - (c + 1)).toNat + 1 := by omega
            simp [← h, h1]

/-- C8 amended: for every query (ordinary or extreme-selector), target
tree, traversal order, oracle and fuel, and every hit limit `k >= 1`, a
successful unbounded search determines the bounded one: `find_match` with
`maxhits = k` returns exactly the length-`k` prefix of the `maxhits =
None` result.  (For `k = 0` this fails: see the counterexample.) -/
theorem C8_maxhits_prefix (fuel : Nat) (raw tree : ETree) (strat : Strategy)
    (ev : EvalOracle) (k : Int) (res : List TRef)
    (hk : 1 ≤ k)
    (h : find_match fuel raw tree none strat ev = .ok res) :
    find_match fuel raw tree (some k) strat ev = .ok (res.take k.toNat) := by
  unfold find_match at h ⊢
  cases hc : compilePattern fuel raw with
  | error e => rw [hc] at h; simp at h
  | ok ps =>
    rw [hc] at h
    obtain ⟨p, single⟩ := ps
    simp only at h ⊢
    cases ht : traverseT fuel strat tree with
    | error e => rw [ht] at h; simp at h
    | ok trav =>
      rw [ht] at h
      simp only at h ⊢
      cases single with
      | true =>
        -- single-match branch: maxhits is never consulted and the result
        -- is a singleton, equal to its own positive-length prefix
        simp only [if_true, ite_true] at h ⊢
        cases hs : scanMatches ev fuel p trav [] with
        | error e => rw [hs] at h; simp at h
        | ok msp =>
          rw [hs] at h
          obtain ⟨ms, p'⟩ := msp
          simp only at h ⊢
          cases hx : find_extreme_case ev fuel p' ms with
          | error e => rw [hx] at h; simp at h
          | ok x =>
            rw [hx] at h
            injection h with h
            have h1 : ∃ m, k.toNat = m + 1 := ⟨(k.toNat - 1), by omega⟩
            obtain ⟨m, hm⟩ := h1
            simp [← h, hm]
      | false =>
        simp only [Bool.false_eq_true, if_false, ite_false] at h ⊢
        have := matchLoop_take ev fuel k trav p 0 res (by omega) h
        simpa using this

/-- A single-node pattern `a;` and target `a;`: the target root itself
matches the compiled pattern. -/
def rawSingleA : ETree := nodeE "a" []

/-- C8 counterexample: with `maxhits = 0` the search does not stop after
zero matches: the first traversal node is processed before the break test
and, matching, it is yielded, so the search returns one match where the
claim requires the empty prefix. -/
theorem C8_counterexample :
    find_match 10 rawSingleA (nodeE "a" []) (some 0) .preorder pyOracle =
      .ok [⟨nodeE "a" [], true, []⟩] ∧
    [(⟨nodeE "a" [], true, []⟩ : TRef)] ≠ [] :=
  ⟨rfl, by simp⟩

/-- C8 witness: the amended prefix property at a concrete query, target,
limit and fuel (the unbounded run on `((c)*)a` over `((c,g)a)` returns
one match, and the `maxhits = 1` run returns its prefix of length 1). -/
theorem C8_maxhits_prefix_witness :
    find_match 30 rawStarCA targetCG (some 1) .preorder pyOracle =
      .ok ((([⟨nodeE "a" [nodeE "c" [], nodeE "g" []], false, []⟩] :
        List TRef)).take (1 : Int).toNat) :=
  C8_maxhits_prefix 30 rawStarCA targetCG .preorder pyOracle 1 _
    (by omega) rfl

/-- C9: `find_match` deep-copies the compiled pattern, so at the value
level the caller's pattern object (its node names, controllers and
skipped counters) is unchanged by a search, and a second search on the
same pattern object returns exactly the same result as the first: no
per-search state leaks between invocations. -/
theorem C9_pattern_unchanged (fuel : Nat) (self tree : ETree)
    (mh : Option Int) (strat : Strategy) (ev : EvalOracle) :
    (find_match_prog fuel self tree mh strat ev).2 = self ∧
    (find_match_prog fuel ((find_match_prog fuel self tree mh strat ev).2)
        tree mh strat ev).1 =
      (find_match_prog fuel self tree mh strat ev).1 :=
  ⟨rfl, rfl⟩

/-- C5 amended (propagation half): a failure while matching one candidate
aborts the whole streaming search with that error; it is not contained to
the candidate and no later target node is examined. -/
theorem C5_error_aborts (ev : EvalOracle) (fuel : Nat) (p : PTree)
    (t : TRef) (ts : List TRef) (c : Int) (mh : Option Int) (e : MErr)
    (h : matchOne ev fuel p t = .error e) :
    matchLoop ev fuel p (t :: ts) c mh = .error e := by
  simp [matchLoop, h]

/-- The pattern `(('@.zzz()')a;`-style query: the child predicate
references an unknown name, which fails even after the root-scope
retry. -/
def rawBadPred : ETree := nodeE "a" [nodeE "@.zzz()" []]

/-- A target whose second traversal node is named `a` (so the failing
child predicate is reached there) and which still has further nodes that
the claim says should have been searched. -/
def targetBadPred : ETree := nodeE "" [nodeE "a" [nodeE "x" []], nodeE "y" []]

/-- C5 counterexample: the predicate failure occurs at a non-root query
node (the root `a` of the query matches its candidate first), yet the
whole search aborts with the `NameError` instead of treating it as a
failed candidate and continuing over the remaining target nodes. -/
theorem C5_counterexample :
    find_match 30 rawBadPred targetBadPred (some 1) .preorder pyOracle =
      .error .name :=
  rfl

/-- C5 witness: the propagation statement applied at a concrete erroring
candidate. -/
theorem C5_error_aborts_witness :
    matchLoop pyOracle 20
      (.node "@.name == \"a\"".toList defaultCtrl
        [.node "@.zzz()".toList defaultCtrl []])
      [⟨nodeE "a" [nodeE "x" []], false, []⟩] 0 (some 1) = .error .name :=
  C5_error_aborts pyOracle 20 _ _ [] 0 (some 1) .name rfl

/-- An extreme-selector query whose child constraint `zzz` matches nothing
in the target below: the candidate list is empty. -/
def rawExtremeChild : ETree :=
  ETree.node "@.dist > %.dist".toList [nodeE "zzz" []]

/-- An extreme-selector query consisting of the selector node alone: every
target node is a structurally valid candidate. -/
def rawExtremeRoot : ETree := ETree.node "@.dist > %.dist".toList []

/-- A two-node target tree with no node named `zzz`. -/
def targetQ : ETree := nodeE "" [nodeE "q" []]

/-- An oracle whose cross-candidate comparison always holds (so the fold
keeps replacing the best-so-far). -/
def cmpTrueOracle : EvalOracle :=
  { pyOracle with evalC := fun _ _ _ => .ok true }

/-- C3 counterexample: an extreme-selector search with no structurally
valid candidate does not return zero results; `find_extreme_case` indexes
`match_list[0]` on the empty list, so the whole search raises
`IndexError`. -/
theorem C3_counterexample :
    find_match 30 rawExtremeChild targetQ (some 1) .preorder pyOracle =
      .error .index :=
  rfl

/-- C3 amended: an extreme-selector search (a compiled pattern whose
single-match flag is set) returns exactly one node whenever the candidate
scan succeeds and the cross-candidate fold succeeds — never more, and for
any `maxhits`; with an empty candidate list it raises `IndexError`
instead of returning none (see the counterexample). -/
theorem C3_extreme_single_result (fuel : Nat) (raw tree : ETree)
    (mh : Option Int) (strat : Strategy) (ev : EvalOracle)
    (p : PTree) (trav ms : List TRef) (p' : PTree) (x : TRef)
    (hc : compilePattern fuel raw = .ok (p, true))
    (ht : traverseT fuel strat tree = .ok trav)
    (hs : scanMatches ev fuel p trav [] = .ok (ms, p'))
    (hx : find_extreme_case ev fuel p' ms = .ok x) :
    find_match fuel raw tree mh strat ev = .ok [x] ∧
      ([x] : List TRef).length = 1 := by
  refine ⟨?_, rfl⟩
  unfold find_match
  rw [hc]
  simp only
  rw [ht]
  simp only [if_true]
  rw [hs]
  simp only
  rw [hx]

/-- C3 witness: the amended statement at a concrete extreme query (the
bare selector node), target, and comparison oracle; the search returns
exactly the one winning node. -/
theorem C3_extreme_single_result_witness :
    find_match 30 rawExtremeRoot targetQ (some 1) .preorder cmpTrueOracle =
      .ok [⟨nodeE "q" [], false, []⟩] ∧
      ([(⟨nodeE "q" [], false, []⟩ : TRef)] : List TRef).length = 1 :=
  C3_extreme_single_result 30 rawExtremeRoot targetQ (some 1) .preorder
    cmpTrueOracle _ _ _ _ _ rfl rfl rfl rfl
/-- The controller the compiler produces for the one-or-more node, with
the mutable skip counter exposed as a parameter. -/
def ctrlPlus (s : Int) : Ctrl :=
  { defaultCtrl with allow_indirect_connection := true, low := 1, skipped := s }

/-- The compiled form of `((c)+)a;`, with the one-or-more node's skip
counter as a parameter (it is the only state the matcher mutates on this
pattern). -/
def pPlus (s : Int) : PTree :=
  .node "@.name == \"a\"".toList defaultCtrl
    [.node ['@'] (ctrlPlus s)
      [.node "@.name == \"c\"".toList defaultCtrl []]]

/-- The compiler output on `((c)+)a;` is `pPlus 0`. -/
theorem compile_rawPlusCA : compilePattern 10 rawPlusCA = .ok (pPlus 0, false) := rfl

/-- Matching the compiled `c` node of `((c)+)a` against a chain of `k`
intermediates ending at `c` succeeds for every `k`, consuming one skip on
the one-or-more node per intermediate (the `high = -1` upper bound never
blocks the skip-up, and the `low = 1` bound is met as soon as one node
has been skipped). -/
theorem plus_chain (k : Nat) :
    ∀ (s : Int) (f : Nat) (ir : Bool) (sis : List ETree),
      0 ≤ s → k + 1 ≤ f →
      matchF pyOracle f (pPlus s) [0, 0] ⟨chainT k, ir, sis⟩ =
        .ok (true, pPlus (s + k)) := by
  induction k with
  | zero =>
    intro s f ir sis hs hf
    obtain ⟨f', rfl⟩ : ∃ f', f = f' + 1 := ⟨f - 1, by omega⟩
    have h0 : matchF pyOracle (f' + 1) (pPlus s) [0, 0] ⟨chainT 0, ir, sis⟩ =
        .ok (true, pPlus s) := rfl
    simpa using h0
  | succ k ih =>
    intro s f ir sis hs hf
    obtain ⟨f', rfl⟩ : ∃ f', f = f' + 1 := ⟨f - 1, by omega⟩
    have hrec := ih (s + 1) f' false [] (by omega) (by omega)
    have hb : (1 : Int) ≤ s + 1 + (k : Int) := by omega
    have harith : s + 1 + (k : Int) = s + ((k : Int) + 1) := by ring
    have hb2 : ¬ (s + ((k : Int) + 1) < 1) := by omega
    have hb3 : (1 : Int) ≤ s + ((k : Int) + 1) := by omega
    have hloc : ∀ (u : List ETree) (irx : Bool) (sisx : List ETree),
        is_local_match
          (PTree.node ['@', '.', 'n', 'a', 'm', 'e', ' ', '=', '=', ' ', '\"', 'c', '\"']
            { ctrl_not := false, low := 0, high := -1, skipped := 0,
              single_match := false, single_match_contstraint := [],
              allow_indirect_connection := false, direct_connection_first := false,
              root := false, leaf := false } [])
          ⟨ETree.node ['b'] u, irx, sisx⟩ pyOracle = .ok false :=
      fun _ _ _ => rfl
    simp [pPlus, ctrlPlus, defaultCtrl] at hrec
    simp [matchF, matchStep, chainT, nodeE, pPlus, ctrlPlus, defaultCtrl,
      getP, PTree.children, PTree.ctrl, PTree.name, ETree.children, ETree.name,
      List.get?, Option.getD, is_in_bounds, modifySkip, modifyAt, List.set,
      childrenBlock, levAux, childRefs, withSisAux, List.find?, nodesLoop,
      permLoop, whileLoop, lexPerms, lexPermsAux, selections, concatMap,
      List.isEmpty, List.length, hloc, hrec, hb, harith, hb2, hb3]

/-- Matching the compiled one-or-more node of `((c)+)a` against the head
of a chain of `n >= 1` intermediates succeeds: the local match is vacuous
(the node reference matches anything), one skip is recorded, and the `c`
child is resolved through the chain. -/
theorem plus_mid (n : Nat) :
    ∀ (f : Nat) (ir : Bool) (sis : List ETree), 1 ≤ n → n + 2 ≤ f →
      matchF pyOracle f (pPlus 0) [0] ⟨chainT n, ir, sis⟩ =
        .ok (true, pPlus n) := by
  intro f ir sis hn hf
  obtain ⟨m, rfl⟩ : ∃ m, n = m + 1 := ⟨n - 1, by omega⟩
  obtain ⟨f', rfl⟩ : ∃ f', f = f' + 1 := ⟨f - 1, by omega⟩
  have hrec := plus_chain m 1 f' false [] (by omega) (by omega)
  have hloc : ∀ (tr : ETree) (irx : Bool) (sisx : List ETree),
      is_local_match
        (PTree.node ['@']
          { ctrl_not := false, low := 1, high := -1, skipped := 0,
            single_match := false, single_match_contstraint := [],
            allow_indirect_connection := true, direct_connection_first := false,
            root := false, leaf := false }
          [PTree.node ['@', '.', 'n', 'a', 'm', 'e', ' ', '=', '=', ' ', '\"', 'c', '\"']
            { ctrl_not := false, low := 0, high := -1, skipped := 0,
              single_match := false, single_match_contstraint := [],
              allow_indirect_connection := false, direct_connection_first := false,
              root := false, leaf := false } []])
        ⟨tr, irx, sisx⟩ pyOracle = .ok true :=
    fun _ _ _ => rfl
  have hb2 : ¬ ((1 : Int) + (m : Int) < 1) := by omega
  have hb3 : (1 : Int) ≤ 1 + (m : Int) := by omega
  have harith : (1 : Int) + (m : Int) = ((m : Int) + 1) := by ring
  simp [pPlus, ctrlPlus, defaultCtrl] at hrec
  simp [matchF, matchStep, chainT, nodeE, pPlus, ctrlPlus, defaultCtrl,
    getP, PTree.children, PTree.ctrl, PTree.name, ETree.children, ETree.name,
    List.get?, Option.getD, is_in_bounds, modifySkip, modifyAt, List.set,
    childrenBlock, levAux, childRefs, withSisAux, List.find?, nodesLoop,
    permLoop, whileLoop, lexPerms, lexPermsAux, selections, concatMap,
    List.isEmpty, List.length, hloc, hrec, hb2, hb3, harith]

/-- Matching the compiled root of `((c)+)a` against the node `a` above a
chain of `n >= 1` intermediates succeeds. -/
theorem plus_top (n : Nat) :
    ∀ (f : Nat) (ir : Bool) (sis : List ETree), 1 ≤ n → n + 3 ≤ f →
      matchF pyOracle f (pPlus 0) [] ⟨ETree.node ['a'] [chainT n], ir, sis⟩ =
        .ok (true, pPlus n) := by
  intro f ir sis hn hf
  obtain ⟨f', rfl⟩ : ∃ f', f = f' + 1 := ⟨f - 1, by omega⟩
  have hrec := plus_mid n f' false [] hn (by omega)
  have hloc : ∀ (u : List ETree) (irx : Bool) (sisx : List ETree),
      is_local_match
        (PTree.node ['@', '.', 'n', 'a', 'm', 'e', ' ', '=', '=', ' ', '\"', 'a', '\"']
          { ctrl_not := false, low := 0, high := -1, skipped := 0,
            single_match := false, single_match_contstraint := [],
            allow_indirect_connection := false, direct_connection_first := false,
            root := false, leaf := false }
          [PTree.node ['@']
            { ctrl_not := false, low := 1, high := -1, skipped := 0,
              single_match := false, single_match_contstraint := [],
              allow_indirect_connection := true, direct_connection_first := false,
              root := false, leaf := false }
            [PTree.node ['@', '.', 'n', 'a', 'm', 'e', ' ', '=', '=', ' ', '\"', 'c', '\"']
              { ctrl_not := false, low := 0, high := -1, skipped := 0,
                single_match := false, single_match_contstraint := [],
                allow_indirect_connection := false, direct_connection_first := false,
                root := false, leaf := false } []]])
        ⟨ETree.node ['a'] u, irx, sisx⟩ pyOracle = .ok true :=
    fun _ _ _ => rfl
  simp [pPlus, ctrlPlus, defaultCtrl] at hrec
  simp [matchF, matchStep, chainT, nodeE, pPlus, ctrlPlus, defaultCtrl,
    getP, PTree.children, PTree.ctrl, PTree.name, ETree.children, ETree.name,
    List.get?, Option.getD, is_in_bounds, modifySkip, modifyAt, List.set,
    childrenBlock, levAux, childRefs, withSisAux, List.find?, nodesLoop,
    permLoop, whileLoop, lexPerms, lexPermsAux, selections, concatMap,
    List.isEmpty, List.length, hloc, hrec]

/-- Preorder references of a chain subtree: every node in the chain is a
single child, so every sister list is empty. -/
def chainRefs : Nat → List TRef
  | 0 => [⟨chainT 0, false, []⟩]
  | n + 1 => ⟨chainT (n + 1), false, []⟩ :: chainRefs n

/-- Closed form of the preorder traversal of a chain subtree. -/
theorem trav_chain (n : Nat) : ∀ f, n + 1 ≤ f →
    preAux f [⟨chainT n, false, []⟩] = .ok (chainRefs n) := by
  induction n with
  | zero =>
    intro f hf
    obtain ⟨f', rfl⟩ : ∃ f', f = f' + 1 := ⟨f - 1, by omega⟩
    simp [preAux, chainT, childRefs, withSisAux, chainRefs, nodeE]
  | succ n ih =>
    intro f hf
    obtain ⟨f', rfl⟩ : ∃ f', f = f' + 1 := ⟨f - 1, by omega⟩
    have h := ih f' (by omega)
    simp [preAux, chainT, childRefs, withSisAux, chainRefs, nodeE, h]

/-- The unnamed ete3 root of a target does not match the root `a` of the
compiled pattern `((c)+)a`, and the pattern state is left unchanged. -/
theorem plus_root_miss (u : List ETree) (f : Nat) :
    matchF pyOracle (f + 1) (pPlus 0) [] ⟨ETree.node [] u, true, []⟩ =
      .ok (false, pPlus 0) := rfl

/-- C1: for the compiled query `((c)+)a`, the search finds no match when
`c` is a direct child of `a` — both on the test tree `((c,g)a);` and on
the bare chain with zero intermediates — and finds exactly the match at
`a` whenever a chain of `n >= 1` single-child intermediate nodes
separates `a` from `c`. -/
theorem C1_one_or_more_quantifier :
    (find_match 20 rawPlusCA targetCG (some 1) .preorder pyOracle = .ok []) ∧
    (find_match 20 rawPlusCA (targetChain 0) (some 1) .preorder pyOracle = .ok []) ∧
    (∀ n : Nat, 1 ≤ n →
      find_match (n + 8) rawPlusCA (targetChain n) (some 1) .preorder pyOracle =
        .ok [⟨ETree.node ['a'] [chainT n], false, []⟩]) := by
  refine ⟨rfl, rfl, ?_⟩
  intro n hn
  have hcomp : compilePattern (n + 8) rawPlusCA = .ok (pPlus 0, false) := rfl
  have htrav : traverseT (n + 8) .preorder (ETree.node []
        [ETree.node ['a'] [chainT n]]) =
      .ok (⟨ETree.node [] [ETree.node ['a'] [chainT n]], true, []⟩ ::
           ⟨ETree.node ['a'] [chainT n], false, []⟩ :: chainRefs n) := by
    have h := trav_chain n (n + 6) (by omega)
    have e1 : traverseT (n + 8) .preorder (ETree.node []
          [ETree.node ['a'] [chainT n]]) =
        (match (match preAux (n + 6) [⟨chainT n, false, []⟩] with
                | Except.ok l =>
                    (Except.ok
                      (⟨ETree.node ['a'] [chainT n], false, []⟩ :: l) :
                      Except MErr (List TRef))
                | Except.error e => Except.error e) with
         | Except.ok l =>
             (Except.ok
               (⟨ETree.node [] [ETree.node ['a'] [chainT n]], true, []⟩ :: l) :
               Except MErr (List TRef))
         | Except.error e => Except.error e) := rfl
    rw [e1, h]
  have hroot : matchF pyOracle (n + 8) (pPlus 0) []
      ⟨ETree.node [] [ETree.node ['a'] [chainT n]], true, []⟩ =
      .ok (false, pPlus 0) := plus_root_miss _ (n + 7)
  have htop : matchF pyOracle (n + 8) (pPlus 0) []
      ⟨ETree.node ['a'] [chainT n], false, []⟩ = .ok (true, pPlus n) :=
    plus_top n (n + 8) false [] hn (by omega)
  simp [find_match, hcomp, htrav, matchLoop, matchOne, targetChain, nodeE,
    hroot, htop]

/-- C1 witness: the chain clause instantiated at one intermediate node. -/
theorem C1_one_or_more_quantifier_witness :
    find_match 9 rawPlusCA (targetChain 1) (some 1) .preorder pyOracle =
      .ok [⟨ETree.node ['a'] [chainT 1], false, []⟩] :=
  C1_one_or_more_quantifier.2.2 1 (by omega)

/-- The controller the compiler produces for the zero-or-more node, with
the mutable skip counter exposed as a parameter. -/
def ctrlStar (s : Int) : Ctrl :=
  { defaultCtrl with allow_indirect_connection := true,
                     direct_connection_first := true, skipped := s }

/-- The compiled form of `((c)*)a;`, with the zero-or-more node's skip
counter as a parameter. -/
def pStar (s : Int) : PTree :=
  .node "@.name == \"a\"".toList defaultCtrl
    [.node ['@'] (ctrlStar s)
      [.node "@.name == \"c\"".toList defaultCtrl []]]

/-- The compiler output on `((c)*)a;` is `pStar 0`. -/
theorem compile_rawStarCA : compilePattern 10 rawStarCA = .ok (pStar 0, false) := rfl

/-- Matching the compiled `c` node of `((c)*)a` against a chain of `k`
intermediates ending at `c` succeeds for every `k >= 0`, consuming one
skip on the zero-or-more node per intermediate (its `low = 0` bound never
blocks). -/
theorem star_chain (k : Nat) :
    ∀ (s : Int) (f : Nat) (ir : Bool) (sis : List ETree),
      0 ≤ s → k + 1 ≤ f →
      matchF pyOracle f (pStar s) [0, 0] ⟨chainT k, ir, sis⟩ =
        .ok (true, pStar (s + k)) := by
  induction k with
  | zero =>
    intro s f ir sis hs hf
    obtain ⟨f', rfl⟩ : ∃ f', f = f' + 1 := ⟨f - 1, by omega⟩
    have h0 : matchF pyOracle (f' + 1) (pStar s) [0, 0] ⟨chainT 0, ir, sis⟩ =
        .ok (true, pStar s) := rfl
    simpa using h0
  | succ k ih =>
    intro s f ir sis hs hf
    obtain ⟨f', rfl⟩ : ∃ f', f = f' + 1 := ⟨f - 1, by omega⟩
    have hrec := ih (s + 1) f' false [] (by omega) (by omega)
    have hb : (0 : Int) ≤ s + 1 + (k : Int) := by omega
    have harith : s + 1 + (k : Int) = s + ((k : Int) + 1) := by ring
    have hb2 : ¬ (s + ((k : Int) + 1) < 0) := by omega
    have hb3 : (0 : Int) ≤ s + ((k : Int) + 1) := by omega
    have hloc : ∀ (u : List ETree) (irx : Bool) (sisx : List ETree),
        is_local_match
          (PTree.node ['@', '.', 'n', 'a', 'm', 'e', ' ', '=', '=', ' ', '\"', 'c', '\"']
            { ctrl_not := false, low := 0, high := -1, skipped := 0,
              single_match := false, single_match_contstraint := [],
              allow_indirect_connection := false, direct_connection_first := false,
              root := false, leaf := false } [])
          ⟨ETree.node ['b'] u, irx, sisx⟩ pyOracle = .ok false :=
      fun _ _ _ => rfl
    simp [pStar, ctrlStar, defaultCtrl] at hrec
    simp [matchF, matchStep, chainT, nodeE, pStar, ctrlStar, defaultCtrl,
      getP, PTree.children, PTree.ctrl, PTree.name, ETree.children, ETree.name,
      List.get?, Option.getD, is_in_bounds, modifySkip, modifyAt, List.set,
      childrenBlock, levAux, childRefs, withSisAux, List.find?, nodesLoop,
      permLoop, whileLoop, lexPerms, lexPermsAux, selections, concatMap,
      List.isEmpty, List.length, hloc, hrec, hb, harith, hb2, hb3]

/-- Matching the compiled zero-or-more node of `((c)*)a` against the head
of a chain of `n >= 0` intermediates succeeds: the zero-intermediate case
is served by the direct-connection-first redirection to the `c` child,
and each intermediate consumes one skip. -/
theorem star_mid (n : Nat) :
    ∀ (f : Nat) (ir : Bool) (sis : List ETree), n + 2 ≤ f →
      matchF pyOracle f (pStar 0) [0] ⟨chainT n, ir, sis⟩ =
        .ok (true, pStar n) := by
  intro f ir sis hf
  obtain ⟨f', rfl⟩ : ∃ f', f = f' + 1 := ⟨f - 1, by omega⟩
  cases n with
  | zero =>
    have h0 : matchF pyOracle (f' + 1) (pStar 0) [0] ⟨chainT 0, ir, sis⟩ =
        .ok (true, pStar 0) := rfl
    simpa using h0
  | succ m =>
    have hrec := star_chain m 1 f' false [] (by omega) (by omega)
    have hloc : ∀ (u : List ETree) (irx : Bool) (sisx : List ETree),
        is_local_match
          (PTree.node ['@', '.', 'n', 'a', 'm', 'e', ' ', '=', '=', ' ', '\"', 'c', '\"']
            { ctrl_not := false, low := 0, high := -1, skipped := 0,
              single_match := false, single_match_contstraint := [],
              allow_indirect_connection := false, direct_connection_first := false,
              root := false, leaf := false } [])
          ⟨ETree.node ['b'] u, irx, sisx⟩ pyOracle = .ok false :=
      fun _ _ _ => rfl
    have hb2 : ¬ ((1 : Int) + (m : Int) < 0) := by omega
    have hb3 : (0 : Int) ≤ 1 + (m : Int) := by omega
    have hb4 : ¬ ((m : Int) + 1 < 0) := by omega
    have hb5 : (0 : Int) ≤ (m : Int) + 1 := by omega
    have harith : (1 : Int) + (m : Int) = ((m : Int) + 1) := by ring
    simp [pStar, ctrlStar, defaultCtrl] at hrec
    simp [matchF, matchStep, chainT, nodeE, pStar, ctrlStar, defaultCtrl,
      getP, PTree.children, PTree.ctrl, PTree.name, ETree.children, ETree.name,
      List.get?, Option.getD, is_in_bounds, modifySkip, modifyAt, List.set,
      childrenBlock, levAux, childRefs, withSisAux, List.find?, nodesLoop,
      permLoop, whileLoop, lexPerms, lexPermsAux, selections, concatMap,
      List.isEmpty, List.length, hloc, hrec, hb2, hb3, hb4, hb5, harith]

/-- Matching the compiled root of `((c)*)a` against the node `a` above a
chain of `n >= 0` intermediates succeeds. -/
theorem star_top (n : Nat) :
    ∀ (f : Nat) (ir : Bool) (sis : List ETree), n + 3 ≤ f →
      matchF pyOracle f (pStar 0) [] ⟨ETree.node ['a'] [chainT n], ir, sis⟩ =
        .ok (true, pStar n) := by
  intro f ir sis hf
  obtain ⟨f', rfl⟩ : ∃ f', f = f' + 1 := ⟨f - 1, by omega⟩
  have hrec := star_mid n f' false [] (by omega)
  have hloc : ∀ (u : List ETree) (irx : Bool) (sisx : List ETree),
      is_local_match
        (PTree.node ['@', '.', 'n', 'a', 'm', 'e', ' ', '=', '=', ' ', '\"', 'a', '\"']
          { ctrl_not := false, low := 0, high := -1, skipped := 0,
            single_match := false, single_match_contstraint := [],
            allow_indirect_connection := false, direct_connection_first := false,
            root := false, leaf := false }
          [PTree.node ['@']
            { ctrl_not := false, low := 0, high := -1, skipped := 0,
              single_match := false, single_match_contstraint := [],
              allow_indirect_connection := true, direct_connection_first := true,
              root := false, leaf := false }
            [PTree.node ['@', '.', 'n', 'a', 'm', 'e', ' ', '=', '=', ' ', '\"', 'c', '\"']
              { ctrl_not := false, low := 0, high := -1, skipped := 0,
                single_match := false, single_match_contstraint := [],
                allow_indirect_connection := false, direct_connection_first := false,
                root := false, leaf := false } []]])
        ⟨ETree.node ['a'] u, irx, sisx⟩ pyOracle = .ok true :=
    fun _ _ _ => rfl
  simp [pStar, ctrlStar, defaultCtrl] at hrec
  simp [matchF, matchStep, chainT, nodeE, pStar, ctrlStar, defaultCtrl,
    getP, PTree.children, PTree.ctrl, PTree.name, ETree.children, ETree.name,
    List.get?, Option.getD, is_in_bounds, modifySkip, modifyAt, List.set,
    childrenBlock, levAux, childRefs, withSisAux, List.find?, nodesLoop,
    permLoop, whileLoop, lexPerms, lexPermsAux, selections, concatMap,
    List.isEmpty, List.length, hloc, hrec]

/-- The unnamed ete3 root of a target does not match the root `a` of the
compiled pattern `((c)*)a`. -/
theorem star_root_miss (u : List ETree) (f : Nat) :
    matchF pyOracle (f + 1) (pStar 0) [] ⟨ETree.node [] u, true, []⟩ =
      .ok (false, pStar 0) := rfl

/-- C2: for the compiled query `((c)*)a`, a match is produced both when
`c` is a direct child of `a` (zero intermediates, shown on the test tree
`((c,g)a);` and on the bare chain) and when any number `n >= 1` of
single-child intermediate nodes separates them: for every `n`, the search
yields exactly the match at `a`. -/
theorem C2_zero_or_more_quantifier :
    (find_match 20 rawStarCA targetCG (some 1) .preorder pyOracle =
      .ok [⟨nodeE "a" [nodeE "c" [], nodeE "g" []], false, []⟩]) ∧
    (∀ n : Nat,
      find_match (n + 8) rawStarCA (targetChain n) (some 1) .preorder pyOracle =
        .ok [⟨ETree.node ['a'] [chainT n], false, []⟩]) := by
  refine ⟨rfl, ?_⟩
  intro n
  have hcomp : compilePattern (n + 8) rawStarCA = .ok (pStar 0, false) := rfl
  have htrav : traverseT (n + 8) .preorder (ETree.node []
        [ETree.node ['a'] [chainT n]]) =
      .ok (⟨ETree.node [] [ETree.node ['a'] [chainT n]], true, []⟩ ::
           ⟨ETree.node ['a'] [chainT n], false, []⟩ :: chainRefs n) := by
    have h := trav_chain n (n + 6) (by omega)
    have e1 : traverseT (n + 8) .preorder (ETree.node []
          [ETree.node ['a'] [chainT n]]) =
        (match (match preAux (n + 6) [⟨chainT n, false, []⟩] with
                | Except.ok l =>
                    (Except.ok
                      (⟨ETree.node ['a'] [chainT n], false, []⟩ :: l) :
                      Except MErr (List TRef))
                | Except.error e => Except.error e) with
         | Except.ok l =>
             (Except.ok
               (⟨ETree.node [] [ETree.node ['a'] [chainT n]], true, []⟩ :: l) :
               Except MErr (List TRef))
         | Except.error e => Except.error e) := rfl
    rw [e1, h]
  have hroot : matchF pyOracle (n + 8) (pStar 0) []
      ⟨ETree.node [] [ETree.node ['a'] [chainT n]], true, []⟩ =
      .ok (false, pStar 0) := star_root_miss _ (n + 7)
  have htop : matchF pyOracle (n + 8) (pStar 0) []
      ⟨ETree.node ['a'] [chainT n], false, []⟩ = .ok (true, pStar n) :=
    star_top n (n + 8) false [] (by omega)
  simp [find_match, hcomp, htrav, matchLoop, matchOne, targetChain, nodeE,
    hroot, htop]

/-! ### The attribute cache (`TreePatternCache` vs `_FakeCache`) -/

/-- Modelled ete3 `traverse("levelorder")` (the default `traverse()`
strategy used by `_FakeCache.get_cached_attr`) over a queue of subtrees,
listing node values. -/
def travLevel : List ETree → List ETree
  | [] => []
  | t :: q => t :: travLevel (q ++ t.children)
termination_by l => (l.map (fun t => sizeOf t)).sum
decreasing_by
  simp only [List.map_append, List.sum_append, List.map_cons, List.sum_cons]
  cases t with
  | node nm ch =>
    have hch : ((ch.map (fun t => sizeOf t)).sum) < sizeOf (ETree.node nm ch) := by
      have : ∀ l : List ETree, ((l.map (fun t => sizeOf t)).sum) < sizeOf l := by
        intro l
        induction l with
        | nil => simp
        | cons a as ihl => simp; omega
      have h2 := this ch
      simp
      omega
    simp only [ETree.children]
    omega

/-- Modelled ete3 preorder iteration (`iter_leaves` walks the tree depth
first) over a stack of subtrees, listing node values. -/
def travPre : List ETree → List ETree
  | [] => []
  | t :: q => t :: travPre (t.children ++ q)
termination_by l => (l.map (fun t => sizeOf t)).sum
decreasing_by
  simp only [List.map_append, List.sum_append, List.map_cons, List.sum_cons]
  cases t with
  | node nm ch =>
    have hch : ((ch.map (fun t => sizeOf t)).sum) < sizeOf (ETree.node nm ch) := by
      have : ∀ l : List ETree, ((l.map (fun t => sizeOf t)).sum) < sizeOf l := by
        intro l
        induction l with
        | nil => simp
        | cons a as ihl => simp; omega
      have h2 := this ch
      simp
      omega
    simp only [ETree.children]
    omega

/-- Modelled ete3 `iter_leaves` / `get_leaves`: the leaves of a subtree in
depth-first order. -/
def iter_leaves (t : ETree) : List ETree :=
  (travPre [t]).filter (fun x => x.children.isEmpty)

/-- Modelled ete3 `get_descendants()` (default levelorder): every node
below the given node, excluding the node itself. -/
def ete3_get_descendants (t : ETree) : List ETree := travLevel t.children

mutual

/-- Modelled ete3 `get_cached_content()` (leaves only, the default): a
leaf stores itself; an internal node stores the union of its children's
stored sets, built bottom up. -/
def cached_leaves : ETree → List ETree
  | .node nm [] => [.node nm []]
  | .node _ (c :: cs) => cached_leavesF (c :: cs)
termination_by t => sizeOf t

/-- Union of the children's leaf sets. -/
def cached_leavesF : List ETree → List ETree
  | [] => []
  | c :: cs => cached_leaves c ++ cached_leavesF cs
termination_by l => sizeOf l

end

mutual

/-- Modelled ete3 `get_cached_content(leaves_only=False)`: every node
stores itself together with the union of its children's stored sets. -/
def cached_all : ETree → List ETree
  | .node nm ch => .node nm ch :: cached_allF ch
termination_by t => sizeOf t

/-- Union of the children's node sets. -/
def cached_allF : List ETree → List ETree
  | [] => []
  | c :: cs => cached_all c ++ cached_allF cs
termination_by l => sizeOf l

end

/-- Modelled ete3 via `TreePatternCache.get_leaves`: `leaves_cache[node]`,
the bottom-up leaf set. -/
def TreePatternCache_get_leaves (t : ETree) : List ETree := cached_leaves t

/-- Modelled ete3 via `TreePatternCache.get_descendants`:
`all_node_cache[node]`, the bottom-up node set (which stores the node
itself together with everything below it). -/
def TreePatternCache_get_descendants (t : ETree) : List ETree := cached_all t

/-- Modelled ete3 via `TreePatternCache.get_cached_attr` for the `name`
attribute: the attribute values over the cached node set selected by
`leaves_only`. -/
def TreePatternCache_get_cached_attr_name (t : ETree) (leaves_only : Bool) : List PStr :=
  (if leaves_only then cached_leaves t else cached_all t).map ETree.name

/-- Modelled ete3 via `_FakeCache.get_leaves`: `node.get_leaves()`, a
direct depth-first leaf traversal. -/
def FakeCache_get_leaves (t : ETree) : List ETree := iter_leaves t

/-- Modelled ete3 via `_FakeCache.get_descendants`:
`node.get_descendants()`, every node strictly below the given node (the
node itself excluded). -/
def FakeCache_get_descendants (t : ETree) : List ETree := ete3_get_descendants t

/-- Modelled ete3 via `_FakeCache.get_cached_attr` for the `name`
attribute: `node.iter_leaves()` when `leaves_only`, else
`node.traverse()` (levelorder, the node itself included). -/
def FakeCache_get_cached_attr_name (t : ETree) (leaves_only : Bool) : List PStr :=
  (if leaves_only then iter_leaves t else travLevel [t]).map ETree.name

theorem cached_allF_append (a b : List ETree) :
    cached_allF (a ++ b) = cached_allF a ++ cached_allF b := by
  induction a with
  | nil => simp [cached_allF]
  | cons c cs ih => simp [cached_allF, ih]

theorem travLevel_perm (q : List ETree) : List.Perm (travLevel q) (cached_allF q) := by
  induction q using travLevel.induct with
  | case1 => simp [travLevel, cached_allF]
  | case2 t q ih =>
    rw [travLevel, cached_allF]
    cases t with
    | node nm ch =>
      rw [cached_all]
      refine ((ih.trans ?_).cons (ETree.node nm ch))
      rw [cached_allF_append]
      simp only [ETree.children]
      exact List.perm_append_comm

theorem travPre_perm (q : List ETree) : List.Perm (travPre q) (cached_allF q) := by
  induction q using travPre.induct with
  | case1 => simp [travPre, cached_allF]
  | case2 t q ih =>
    rw [travPre, cached_allF]
    cases t with
    | node nm ch =>
      rw [cached_all]
      refine ((ih.trans ?_).cons (ETree.node nm ch))
      rw [cached_allF_append]
      simp only [ETree.children]
      exact List.Perm.refl _

theorem cached_leavesF_filter (n : Nat) :
    ∀ l : List ETree, sizeOf l ≤ n →
      cached_leavesF l = (cached_allF l).filter (fun x => x.children.isEmpty) := by
  induction n with
  | zero =>
    intro l h
    cases l with
    | nil => simp [cached_leavesF, cached_allF]
    | cons c cs => simp at h
  | succ m ih =>
    intro l h
    cases l with
    | nil => simp [cached_leavesF, cached_allF]
    | cons c cs =>
      rw [cached_leavesF, cached_allF, List.filter_append]
      have hcs : cached_leavesF cs = (cached_allF cs).filter (fun x => x.children.isEmpty) := by
      
        refine ih cs ?_
        simp at h ⊢
        omega
      rw [hcs]
      cases c with
      | node nm ch =>
        cases ch with
        | nil =>
          simp [cached_leaves, cached_all, cached_allF, cached_leavesF, ETree.children]
        | cons d ds =>
          rw [cached_leaves, cached_all]
          have hd : cached_leavesF (d :: ds) =
              (cached_allF (d :: ds)).filter (fun x => x.children.isEmpty) := by
      
            refine ih (d :: ds) ?_
            simp at h ⊢
            omega
          rw [hd]
          simp [ETree.children, List.isEmpty]

theorem cached_leaves_filter (t : ETree) :
    cached_leaves t = (cached_all t).filter (fun x => x.children.isEmpty) := by
  have h := cached_leavesF_filter (sizeOf [t]) [t] (le_refl _)
  rw [cached_leavesF, cached_allF] at h
  simp only [List.filter_append] at h
  simpa [cached_leavesF, cached_allF] using h

theorem cached_allF_single (t : ETree) : cached_allF [t] = cached_all t := by
  rw [cached_allF, cached_allF, List.append_nil]

/-- C4 counterexample: on the single-node target `x`, the cached
`get_descendants` returns the node itself while the no-cache fallback's
`get_descendants` returns the empty list, so "descendants(node) includes
the node itself in both" is false and the two accessors differ. -/
theorem C4_counterexample :
    TreePatternCache_get_descendants (ETree.node ['x'] []) = [ETree.node ['x'] []] ∧
    FakeCache_get_descendants (ETree.node ['x'] []) = [] := by
  constructor
  · rw [TreePatternCache_get_descendants, cached_all, cached_allF]
  · rw [FakeCache_get_descendants, ete3_get_descendants]
    simp [ETree.children, travLevel]

/-- C4 (amended): for every target subtree, the cached accessors agree
with the no-cache fallback as node multisets except for the self node:
`get_leaves` returns the same leaves, `get_cached_attr` (name attribute,
either `leaves_only` flag) returns the same attribute values, and the
cached `get_descendants` returns exactly the fallback's descendants plus
the node itself. -/
theorem C4_cache_equivalence (t : ETree) :
    List.Perm (TreePatternCache_get_leaves t) (FakeCache_get_leaves t) ∧
    (∀ lo : Bool, List.Perm (TreePatternCache_get_cached_attr_name t lo)
        (FakeCache_get_cached_attr_name t lo)) ∧
    List.Perm (TreePatternCache_get_descendants t) (t :: FakeCache_get_descendants t) := by
  have hall : List.Perm (cached_all t) (travPre [t]) := by
    have h := travPre_perm [t]
    rw [cached_allF_single] at h
    exact h.symm
  have hallL : List.Perm (cached_all t) (travLevel [t]) := by
    have h := travLevel_perm [t]
    rw [cached_allF_single] at h
    exact h.symm
  have hleaves : List.Perm (cached_leaves t) (iter_leaves t) := by
    rw [cached_leaves_filter, iter_leaves]
    exact hall.filter _
  have hdesc : List.Perm (cached_all t) (t :: travLevel t.children) := by
    cases t with
    | node nm ch =>
      rw [cached_all]
      simp only [ETree.children]
      exact ((travLevel_perm ch).symm).cons (ETree.node nm ch)
  refine ⟨hleaves, ?_, ?_⟩
  · intro lo
    cases lo with
    | true =>
      rw [TreePatternCache_get_cached_attr_name, FakeCache_get_cached_attr_name]
      simp only [if_true]
      exact hleaves.map _
    | false =>
      rw [TreePatternCache_get_cached_attr_name, FakeCache_get_cached_attr_name]
      simp only [Bool.false_eq_true, if_false]
      exact hallL.map _
  · rw [TreePatternCache_get_descendants, FakeCache_get_descendants, ete3_get_descendants]
    exact hdesc

end TM
